import Mathlib

/-!
Verification development for the WinShield patch-compliance engine.

The definitions below are a shallow embedding of the Python sources
`winshield_downloader.py` and `winshield_scanner.py`:

* strings are modelled by Lean `String` (lists of characters); Python's
  `needle in haystack` becomes `strContains`, `str.lower()` becomes a
  per-character `Char.toLower` map (all tokens the code compares against
  are ASCII), `str.strip()` becomes a whitespace-stripping map `strStrip`;
* the two regular expressions used by `score_candidate`
  (`\b\d{2}h[12]\b` and `\(\s*(\d{5})\.`) are implemented as explicit
  left-to-right scans with the same leftmost-match semantics;
* Python dicts keyed by KB identifier become association lists that
  preserve insertion order, Python sets become lists queried only through
  membership;
* fallible code paths (`raise RuntimeError`) become `Except String`.
-/

namespace Winshield

/-! ## String helpers -/

/-- Lowercase a string character by character (embeds `str.lower()`;
the update-catalog tokens compared by the engine are all ASCII). -/
def strLower (s : String) : String :=
  String.mk (s.data.map Char.toLower)

/-- Embeds Python's `str.strip()`: remove leading and trailing whitespace
characters. -/
def strStrip (s : String) : String :=
  String.mk (((s.data.dropWhile Char.isWhitespace).reverse.dropWhile
    Char.isWhitespace).reverse)

/-- Substring test on character lists: `containsSub n h` is true iff the
character list `n` occurs contiguously inside `h`. -/
def containsSub : List Char → List Char → Bool
  | n, [] => n.isEmpty
  | n, c :: t => n.isPrefixOf (c :: t) || containsSub n t

/-- Embeds Python's `needle in haystack` for strings. -/
def strContains (hay needle : String) : Bool :=
  containsSub needle.data hay.data

/-- Embeds Python's `s.startswith(pre)`. -/
def strStartsWith (s pre : String) : Bool :=
  pre.data.isPrefixOf s.data

/-- A regex word character for the `\b` boundary: letters, digits, underscore. -/
def wordChar (c : Char) : Bool :=
  c.isAlphanum || c = '_'

/-- Whether a half-year token `\d{2}h[12]\b` starts at the head of `l`. -/
def halfYearAt : List Char → Bool
  | d1 :: d2 :: 'h' :: c :: rest =>
    d1.isDigit && d2.isDigit && (c = '1' || c = '2') &&
      (match rest with
       | [] => true
       | r :: _ => !wordChar r)
  | _ => false

/-- Boundary condition for `\b` before the token: start of string or a
non-word character. -/
def boundaryOk : Option Char → Bool
  | none => true
  | some p => !wordChar p

/-- Scan for `\b\d{2}h[12]\b` keeping track of the previous character. -/
def hasHalfYearAux (prev : Option Char) : List Char → Bool
  | [] => false
  | c :: t => (boundaryOk prev && halfYearAt (c :: t)) || hasHalfYearAux (some c) t

/-- Embeds `re.search(r"\b\d{2}h[12]\b", t)` as a Boolean. -/
def hasHalfYearToken (t : String) : Bool :=
  hasHalfYearAux none t.data

/-- After `(\s*` has been consumed: expect exactly five digits followed by
a literal dot, returning the five digits. -/
def fiveDigitsDot : List Char → Option (List Char)
  | d1 :: d2 :: d3 :: d4 :: d5 :: '.' :: _ =>
    if d1.isDigit && d2.isDigit && d3.isDigit && d4.isDigit && d5.isDigit then
      some [d1, d2, d3, d4, d5]
    else
      none
  | _ => none

/-- Consume the `\s*` part (greedy; whitespace and digits are disjoint so
greediness is safe) and then the `(\d{5})\.` part. -/
def afterParen : List Char → Option (List Char)
  | [] => none
  | c :: t => if c.isWhitespace then afterParen t else fiveDigitsDot (c :: t)

/-- Whether `\(\s*(\d{5})\.` matches at the head of `l`, returning the
captured digits. -/
def parenBuildAt : List Char → Option (List Char)
  | '(' :: rest => afterParen rest
  | _ => none

/-- Leftmost-match scan for `\(\s*(\d{5})\.`. -/
def searchBuildAux : List Char → Option (List Char)
  | [] => none
  | c :: t =>
    match parenBuildAt (c :: t) with
    | some ds => some ds
    | none => searchBuildAux t

/-- Embeds `re.search(r"\(\s*(\d{5})\.", t)`, returning the captured
five-digit group of the first match. -/
def searchBuild (t : String) : Option String :=
  (searchBuildAux t.data).map String.mk

/-! ## Downloader data model (`winshield_downloader.py`) -/

/-- Data class for a catalog search candidate (`CatalogCandidate`). -/
structure CatalogCandidate where
  update_id : String
  title : String
  products : String
  classification : String
  last_updated : String
  version : String
  size : String
deriving DecidableEq, Repr

/-- Data class for baseline constraints (`BaselineConstraints`). -/
structure BaselineConstraints where
  windows_gen : String
  display_version : String
  build_major : String
  catalog_arch : String
deriving DecidableEq, Repr

/-- The baseline metadata fields read by `build_constraints`.  Each field
holds the result of `str(baseline.get(Key) or "")`, so an absent or null
key is represented by the empty string. -/
structure DownloaderBaseline where
  osName : String
  displayVersion : String
  architecture : String
  build : String
deriving DecidableEq, Repr

/-- Embeds `build.split(".", 1)[0]`: the prefix of `s` before the first dot. -/
def splitDotHead (s : String) : String :=
  String.mk (s.data.takeWhile (fun c => c ≠ '.'))

/-- Embeds `build_constraints`: converts baseline metadata into the matching
constraints used for candidate scoring. -/
def build_constraints (baseline : DownloaderBaseline) : BaselineConstraints :=
  let os_name := baseline.osName
  let display_version := baseline.displayVersion
  let arch := baseline.architecture
  let build := baseline.build
  let build_major := if build = "" then "" else splitDotHead build
  let os_lower := strLower os_name
  let windows_gen :=
    if strContains os_lower "windows 11" then "windows 11"
    else if strContains os_lower "windows 10" then "windows 10"
    else ""
  let arch_lower := strLower arch
  let catalog_arch :=
    if arch_lower = "x64" ∨ arch_lower = "amd64" then "x64"
    else if strContains arch_lower "arm64" then "arm64"
    else if arch_lower = "x86" ∨ arch_lower = "32-bit" then "x86"
    else "x64"
  { windows_gen := windows_gen
    display_version := strStrip display_version
    build_major := strStrip build_major
    catalog_arch := catalog_arch }

/-! ## Candidate scoring (`score_candidate`) -/

/-- The display-version adjustment of `score_candidate` (`+25` when the
display version occurs in the title, `-15` when a generic half-year token
occurs but the display version does not). -/
def dvAdjust (t : String) (c : BaselineConstraints) : Int :=
  let dv := strStrip (strLower c.display_version)
  (if dv ≠ "" ∧ strContains t dv then 25 else 0) +
    (if dv ≠ "" ∧ hasHalfYearToken t ∧ ¬ strContains t dv then -15 else 0)

/-- The build-major adjustment of `score_candidate` (`+10` when the
parenthesised five-digit build in the title equals the baseline's
build-major, `-5` when it differs). -/
def buildAdjust (t : String) (c : BaselineConstraints) : Int :=
  if c.build_major ≠ "" then
    match searchBuild t with
    | some ds => if ds = c.build_major then 10 else -5
    | none => 0
  else 0

/-- The architecture bonus of `score_candidate` (`+25` when the title names
the baseline's own architecture marker). -/
def archBonus (arch : String) (t : String) : Int :=
  if arch = "x64" ∧ strContains t "x64-based" then 25
  else if arch = "arm64" ∧ strContains t "arm64-based" then 25
  else if arch = "x86" ∧ (strContains t "x86-based" ∨ strContains t "32-bit") then 25
  else 0

/-- Embeds `score_candidate`: the candidate scoring function based on
baseline constraints, with the hard-reject sentinel `-10000`. -/
def score_candidate (candidate : CatalogCandidate) (kb_id : String)
    (c : BaselineConstraints) : Int :=
  let t := strLower candidate.title
  if ¬ strContains t (strLower kb_id) then -10000
  else
    let score : Int := 0 + 50
    let score := score + (if c.windows_gen ≠ "" ∧ strContains t c.windows_gen then 40 else 0)
    if c.windows_gen = "windows 10" ∧ strContains t "windows 11" then -10000
    else if c.windows_gen = "windows 11" ∧ strContains t "windows 10" then -10000
    else if strStartsWith c.windows_gen "windows " ∧ strContains t "server" then -10000
    else if c.catalog_arch = "x64" ∧
        (strContains t "arm64-based" ∨ strContains t "x86-based" ∨ strContains t "32-bit") then
      -10000
    else if c.catalog_arch = "arm64" ∧
        (strContains t "x64-based" ∨ strContains t "x86-based" ∨ strContains t "32-bit") then
      -10000
    else if c.catalog_arch = "x86" ∧
        (strContains t "x64-based" ∨ strContains t "arm64-based") then
      -10000
    else
      score + archBonus c.catalog_arch t + dvAdjust t c + buildAdjust t c

/-! ## Candidate selection (`choose_best_candidate`) -/

/-- The scored list built by `choose_best_candidate`: every candidate is
scored and those with a negative score are discarded. -/
def scoredOf (candidates : List CatalogCandidate) (kb_id : String)
    (constraints : BaselineConstraints) : List (Int × CatalogCandidate) :=
  (candidates.map (fun cand => (score_candidate cand kb_id constraints, cand))).filter
    (fun p => 0 ≤ p.1)

/-- Descending comparison on scores, used for
`scored.sort(key=lambda x: x[0], reverse=True)` (a stable sort). -/
def descLE (a b : Int × CatalogCandidate) : Bool :=
  decide (b.1 ≤ a.1)

/-- Embeds `choose_best_candidate`: selects the best candidate and enforces
the minimum confidence threshold of 90. -/
def choose_best_candidate (candidates : List CatalogCandidate) (kb_id : String)
    (constraints : BaselineConstraints) :
    Option CatalogCandidate × Option String :=
  match (scoredOf candidates kb_id constraints).mergeSort descLE with
  | [] => (none, some "No candidate matched baseline constraints.")
  | (best_score, best) :: _ =>
    if best_score < 90 then
      (none, some ("Ambiguous match (best score " ++ toString best_score ++ " below threshold)."))
    else
      (some best, none)

/-- The first pair attaining the maximal score of the list (ties are broken
in favour of the earlier position, matching a stable descending sort). -/
def firstBest : List (Int × CatalogCandidate) → Option (Int × CatalogCandidate)
  | [] => none
  | p :: t =>
    match firstBest t with
    | none => some p
    | some q => if q.1 > p.1 then some q else some p

/-! ## Scanner data model (`winshield_scanner.py`) -/

/-- A bulletin record as handled by the scanner: a KB identifier with the
months, CVEs and superseded identifiers reported for it.  An entry whose
`KB` key is absent or null is represented with `kb = ""` (Python's
falsiness check `if not kb_id`). -/
structure KbEntry where
  kb : String
  months : List String
  cves : List String
  supersedes : List String
deriving DecidableEq, Repr

/-- The set of identifiers directly superseded by `k` according to the
supersedes-map built by `compute_supersedence` (a Python `set`, modelled
as a deduplicated list in first-insertion order). -/
def supersedesOf (entries : List KbEntry) (k : String) : List String :=
  ((entries.filter (fun e => decide (e.kb ≠ "" ∧ e.kb = k))).flatMap
    (fun e => e.supersedes)).dedup

/-- Every identifier appearing on the right-hand side of the supersedes
relation; the finite universe used for the termination measure of the DFS. -/
def allOlds (entries : List KbEntry) : List String :=
  (entries.filter (fun e => decide (e.kb ≠ ""))).flatMap (fun e => e.supersedes)

theorem mem_allOlds_of_mem_supersedesOf {entries : List KbEntry} {k x : String}
    (hx : x ∈ supersedesOf entries k) : x ∈ allOlds entries := by
  rw [supersedesOf, List.mem_dedup, List.mem_flatMap] at hx
  obtain ⟨e, he, hxe⟩ := hx
  rw [List.mem_filter] at he
  rw [allOlds, List.mem_flatMap]
  refine ⟨e, List.mem_filter.mpr ⟨he.1, ?_⟩, hxe⟩
  have := of_decide_eq_true he.2
  simp [this.1]

/-- If the predicate `q` implies `p` and some list member satisfies `p` but
not `q`, then filtering by `q` yields a strictly shorter list than
filtering by `p`. -/
theorem length_filter_lt_of_imp {α : Type} {p q : α → Bool} (U : List α)
    (himp : ∀ x, q x = true → p x = true) (a : α) (haU : a ∈ U)
    (hpa : p a = true) (hqa : q a = false) :
    (U.filter q).length < (U.filter p).length := by
  induction U with
  | nil => simp at haU
  | cons b t ih =>
    rcases List.mem_cons.mp haU with rfl | hat
    · have hle : (t.filter q).length ≤ (t.filter p).length := by
        rw [← List.countP_eq_length_filter, ← List.countP_eq_length_filter]
        exact List.countP_mono_left (fun x _ => himp x)
      simp [List.filter_cons, hpa, hqa]
      omega
    · have hlt := ih hat
      cases hqb : q b
      · cases hpb : p b <;> simp [List.filter_cons, hpb, hqb] <;> omega
      · rw [List.filter_cons, List.filter_cons, himp b hqb, hqb]
        simp
        omega

/-- The depth-first expansion loop of `compute_supersedence` for one
installed traversal root: repeatedly pop an identifier, add each identifier
it directly supersedes to the logically-present accumulator `lp`, record
the `(old, root)` attribution in `pairs`, and push identifiers not yet in
the per-root `seen` set.  Terminates for every input (including cyclic
supersedes relations) because each step either consumes a stack entry or
moves a not-yet-seen member of `allOlds entries` into `seen`. -/
def dfsLoop (entries : List KbEntry) (root : String) (stack seen lp : List String)
    (pairs : List (String × String)) : List String × List (String × String) :=
  match stack with
  | [] => (lp, pairs)
  | current :: rest =>
    dfsLoop entries root
      (((supersedesOf entries current).filter (fun old => decide (old ∉ seen))).reverse ++ rest)
      (seen ++ (supersedesOf entries current).filter (fun old => decide (old ∉ seen)))
      ((supersedesOf entries current).foldl
        (fun acc old => if old ∈ acc then acc else acc ++ [old]) lp)
      (pairs ++ (supersedesOf entries current).map (fun old => (old, root)))
termination_by
  (((allOlds entries).filter (fun x => decide (x ∉ seen))).length, stack.length)
decreasing_by
  by_cases hN : (supersedesOf entries current).filter (fun old => decide (old ∉ seen)) = []
  · rw [hN]
    simp only [List.append_nil, List.reverse_nil, List.nil_append]
    exact Prod.Lex.right _ (by simp)
  · apply Prod.Lex.left
    obtain ⟨a, ha⟩ := List.exists_mem_of_ne_nil _ hN
    have haOlds : a ∈ supersedesOf entries current := (List.mem_filter.mp ha).1
    have haSeen : a ∉ seen := by
      have := (List.mem_filter.mp ha).2
      simpa using this
    have haU : a ∈ allOlds entries := mem_allOlds_of_mem_supersedesOf haOlds
    refine length_filter_lt_of_imp _ ?_ a haU (by simpa using haSeen) ?_
    · intro x hx
      have hx' := of_decide_eq_true hx
      rw [List.mem_append] at hx'
      simp only [decide_eq_true_eq]
      exact fun hxs => hx' (Or.inl hxs)
    · simp only [decide_eq_false_iff_not, not_not, List.mem_append]
      exact Or.inr ha

/-- Sorting used for the `sorted(...)` calls of the scanner. -/
def sortStrings (l : List String) : List String :=
  l.mergeSort (fun a b => decide (a ≤ b))

/-- Converts the accumulated `(old, root)` attribution pairs into the
superseded-by map: keys in first-insertion order, values as sorted
deduplicated root lists (Python's `{k: sorted(v) for k, v in ...}`). -/
def supersededByList (pairs : List (String × String)) : List (String × List String) :=
  ((pairs.map Prod.fst).dedup).map
    (fun k => (k, sortStrings ((pairs.filter (fun p => decide (p.1 = k))).map Prod.snd).dedup))

/-- Association-list lookup for the superseded-by map. -/
def lookupSB (m : List (String × List String)) (k : String) : Option (List String) :=
  (m.find? (fun p => decide (p.1 = k))).map Prod.snd

/-- The traversal of `compute_supersedence`: expand supersedence from each
installed KB, accumulating the logically-present list and the attribution
pairs across the independent per-root traversals. -/
def dfsFold (kb_entries : List KbEntry) (installed_kbs : List String) :
    List String × List (String × String) :=
  installed_kbs.foldl
    (fun acc root => dfsLoop kb_entries root [root] [root] acc.1 acc.2)
    (installed_kbs, [])

/-- Embeds `compute_supersedence`: marks identifiers superseded (possibly
transitively) by an installed KB as logically present, and reports for each
such identifier the installed roots whose traversal reached it. -/
def compute_supersedence (kb_entries : List KbEntry) (installed_kbs : List String) :
    List String × List (String × List String) :=
  ((dfsFold kb_entries installed_kbs).1,
    supersededByList (dfsFold kb_entries installed_kbs).2)

/-! ## Bulletin merge index (`merge_kb_entries` and the normalisation pass) -/

/-- The duplicate-avoiding list union used by `merge_kb_entries` for each of
the three collections: append each non-empty incoming element that is not
already present. -/
def addMissing (cur : List String) (incoming : List String) : List String :=
  incoming.foldl (fun acc x => if x ≠ "" ∧ x ∉ acc then acc ++ [x] else acc) cur

/-- One step of `merge_kb_entries` for a single incoming adapter entry.
The index (a Python dict keyed by KB identifier) is modelled as a list of
records in insertion order, keyed by their `kb` field. -/
def mergeOne (existing : List KbEntry) (entry : KbEntry) : List KbEntry :=
  if entry.kb = "" then existing
  else
    let withKey :=
      if existing.any (fun e => decide (e.kb = entry.kb)) then existing
      else existing ++ [{ kb := entry.kb, months := [], cves := [], supersedes := [] }]
    withKey.map (fun e =>
      if e.kb = entry.kb then
        { e with
          months := addMissing e.months entry.months
          cves := addMissing e.cves entry.cves
          supersedes := addMissing e.supersedes entry.supersedes }
      else e)

/-- Embeds `merge_kb_entries`: in-place merge of adapter KB entries into the
indexed structure, modelled functionally as a fold. -/
def merge_kb_entries (existing : List KbEntry) (incoming : List KbEntry) : List KbEntry :=
  incoming.foldl mergeOne existing

/-- The normalisation pass of the scanner's `main`: each record's three
collections are replaced by their sorted, deduplicated forms
(`sorted(set(...))`). -/
def normalizeEntry (e : KbEntry) : KbEntry :=
  { e with
    months := sortStrings e.months.dedup
    cves := sortStrings e.cves.dedup
    supersedes := sortStrings e.supersedes.dedup }

/-- Normalisation of the whole merged index. -/
def normalizeIndex (l : List KbEntry) : List KbEntry :=
  l.map normalizeEntry

/-- The incoming entry `e` is already fully merged into the index `st`:
its key is present, and every record under that key already holds all of
`e`'s non-empty months, CVEs and superseded identifiers. -/
def absorbed (st : List KbEntry) (e : KbEntry) : Prop :=
  (∃ r ∈ st, r.kb = e.kb) ∧
  ∀ r ∈ st, r.kb = e.kb →
    (∀ x ∈ e.months, x ≠ "" → x ∈ r.months) ∧
    (∀ x ∈ e.cves, x ≠ "" → x ∈ r.cves) ∧
    (∀ x ∈ e.supersedes, x ≠ "" → x ∈ r.supersedes)

/-! ## Month-range builder (`build_month_ids_from_lcu`) -/

/-- The English month abbreviations produced and consumed by the
`"%Y-%b"` format. -/
def monthAbbrevs : List String :=
  ["Jan", "Feb", "Mar", "Apr", "May", "Jun", "Jul", "Aug", "Sep", "Oct", "Nov", "Dec"]

/-- Parse a month abbreviation case-insensitively (as `strptime`'s `%b`
does), returning the zero-based month index. -/
def monthFromAbbrev (s : String) : Option (Fin 12) :=
  let t := strLower s
  if t = "jan" then some 0
  else if t = "feb" then some 1
  else if t = "mar" then some 2
  else if t = "apr" then some 3
  else if t = "may" then some 4
  else if t = "jun" then some 5
  else if t = "jul" then some 6
  else if t = "aug" then some 7
  else if t = "sep" then some 8
  else if t = "oct" then some 9
  else if t = "nov" then some 10
  else if t = "dec" then some 11
  else none

/-- Split a character list at each `'-'` (the separator of the
`"YYYY-Mon"` month-identifier format). -/
def splitDash : List Char → List (List Char)
  | [] => [[]]
  | c :: t =>
    if c = '-' then [] :: splitDash t
    else
      match splitDash t with
      | h :: r => (c :: h) :: r
      | [] => [[c]]

/-- Parse a non-empty all-digit character list as a decimal number (the
`%Y` field). -/
def natFromDigits (l : List Char) : Option Nat :=
  if l = [] then none
  else if l.all Char.isDigit then
    some (l.foldl (fun acc c => acc * 10 + (c.toNat - 48)) 0)
  else none

/-- Embeds `datetime.strptime(s, "%Y-%b")` restricted to the
year-and-month information the builder uses: a calendar month is a pair of
a year and a zero-based month index. -/
def parseMonthId (s : String) : Option (Nat × Fin 12) :=
  match splitDash s.data with
  | [y, m] =>
    match natFromDigits y, monthFromAbbrev (String.mk m) with
    | some yn, some mo => some (yn, mo)
    | _, _ => none
  | _ => none

/-- Embeds `current.strftime("%Y-%b")` for the first day of a month. -/
def fmtMonth (y : Nat) (m : Fin 12) : String :=
  toString y ++ "-" ++ monthAbbrevs.getD m.val ""

/-- Chronological (lexicographic) strict order on calendar months, as given
by comparing the corresponding `datetime` values. -/
def ymLt (a b : Nat × Fin 12) : Prop :=
  a.1 < b.1 ∨ (a.1 = b.1 ∧ a.2 < b.2)

instance (a b : Nat × Fin 12) : Decidable (ymLt a b) := by
  unfold ymLt
  infer_instance

/-- The month-emitting `while True` loop of `build_month_ids_from_lcu`:
emit the current month, stop at the end month or once the cap is reached,
otherwise advance one calendar month (with the `month == 13` carry). -/
def monthLoop (endYM : Nat × Fin 12) (max_months : Nat) (y : Nat) (m : Fin 12)
    (acc : List String) : List String :=
  if ymLt endYM (y, m) then acc
  else
    let acc' := acc ++ [fmtMonth y m]
    if (y, m) = endYM ∨ max_months ≤ acc'.length then acc'
    else if hm : m.val = 11 then monthLoop endYM max_months (y + 1) 0 acc'
    else monthLoop endYM max_months y ⟨m.val + 1, by omega⟩ acc'
termination_by (endYM.1 * 12 + endYM.2.val + 1) - (y * 12 + m.val)
decreasing_by
  all_goals
    rename_i hstop _
    rw [ymLt] at hstop
    push_neg at hstop
    have h2 := endYM.2.isLt
    have h3 := m.isLt
    simp only [Fin.lt_def] at hstop
    omega

/-- The scanner baseline fields read by `build_month_ids_from_lcu`.
`isAdmin` models the truthiness of `baseline.get("IsAdmin")`; the two month
identifiers hold `""` when the corresponding key is absent or null. -/
structure ScannerBaseline where
  isAdmin : Bool
  lcuMonthId : String
  msrcLatestMonthId : String
deriving DecidableEq, Repr

/-- Embeds `build_month_ids_from_lcu`.  `nowYM` is the ambient current
calendar month (`datetime.now(UTC)`), used only when the baseline has no
`MsrcLatestMonthId`.  Failures (`raise RuntimeError` and the uncaught
`ValueError` of `strptime` on a malformed month identifier) are modelled
as `Except.error` with the corresponding message. -/
def build_month_ids_from_lcu (baseline : ScannerBaseline) (nowYM : Nat × Fin 12)
    (max_months : Nat) : Except String (List String) :=
  if baseline.isAdmin = false then
    Except.error "Baseline collected without administrative privileges. LCU detection requires elevation."
  else if baseline.lcuMonthId = "" then
    Except.error "Baseline did not provide LcuMonthId."
  else
    match (if baseline.msrcLatestMonthId ≠ "" then parseMonthId baseline.msrcLatestMonthId
           else some nowYM) with
    | none => Except.error "time data does not match format %Y-%b"
    | some endYM =>
      match parseMonthId baseline.lcuMonthId with
      | none => Except.error "time data does not match format %Y-%b"
      | some startYM =>
        let s := if ymLt endYM startYM then endYM else startYM
        Except.ok (monthLoop endYM max_months s.1 s.2 [])

/-! ## Statement-level definitions -/

/-- The hard-reject architecture condition of `score_candidate`: the
lower-cased title names an architecture marker of a family other than the
baseline's normalized architecture. -/
def wrongArchMarker (arch t : String) : Prop :=
  (arch = "x64" ∧ (strContains t "arm64-based" ∨ strContains t "x86-based" ∨ strContains t "32-bit")) ∨
  (arch = "arm64" ∧ (strContains t "x64-based" ∨ strContains t "x86-based" ∨ strContains t "32-bit")) ∨
  (arch = "x86" ∧ (strContains t "x64-based" ∨ strContains t "arm64-based"))

/-- The positive architecture condition of `score_candidate`: the
lower-cased title names the baseline's own architecture marker. -/
def ownArchMarker (arch t : String) : Prop :=
  (arch = "x64" ∧ strContains t "x64-based") ∨
  (arch = "arm64" ∧ strContains t "arm64-based") ∨
  (arch = "x86" ∧ (strContains t "x86-based" ∨ strContains t "32-bit"))

/-- One supersedence edge: `b` is directly superseded by `a`. -/
def supStep (entries : List KbEntry) (a b : String) : Prop :=
  b ∈ supersedesOf entries a

/-- Zero or more supersedence edges. -/
def ReachStar (entries : List KbEntry) : String → String → Prop :=
  Relation.ReflTransGen (supStep entries)

/-- `old` is reached from `root` by at least one supersedence edge. -/
def ReachPlus (entries : List KbEntry) (root old : String) : Prop :=
  ∃ n, ReachStar entries root n ∧ old ∈ supersedesOf entries n

/-- All identifiers directly superseded by `n` carry the attribution
`(old, root)` in `pairs`. -/
def rootProcessed (entries : List KbEntry) (root : String)
    (pairs : List (String × String)) (n : String) : Prop :=
  ∀ old ∈ supersedesOf entries n, (old, root) ∈ pairs

/-- Invariant of the per-root DFS loop: every identifier in the `seen` set
is either still on the stack, or has been fully expanded (its direct
successors are attributed in `pairs` and are themselves in `seen`). -/
def dfsInv (entries : List KbEntry) (root : String) (stack seen : List String)
    (pairs : List (String × String)) : Prop :=
  ∀ x ∈ seen, x ∈ stack ∨
    (rootProcessed entries root pairs x ∧ ∀ old ∈ supersedesOf entries x, old ∈ seen)

/-- Linear month index of a calendar month. -/
def ymIdx (p : Nat × Fin 12) : Nat :=
  p.1 * 12 + p.2.val

/-- The calendar month with linear index `t`. -/
def ymOfIdx (t : Nat) : Nat × Fin 12 :=
  (t / 12, ⟨t % 12, by omega⟩)

/-- Format the month with linear index `t`. -/
def fmtIdx (t : Nat) : String :=
  fmtMonth (ymOfIdx t).1 (ymOfIdx t).2

/-- Modelled from the spec: the consecutive calendar months from the start
month `s` to the end month `e` inclusive, in chronological order, truncated
to at most `maxM` entries.  Used as the specification-side description of
the Month-Range Builder's output. -/
def specMonthRange (s e : Nat × Fin 12) (maxM : Nat) : List String :=
  ((List.range (ymIdx e + 1 - ymIdx s)).map (fun i => fmtIdx (ymIdx s + i))).take maxM

/-! ## Component bounds for the scorer -/

theorem dvAdjust_bounds (t : String) (c : BaselineConstraints) :
    -15 ≤ dvAdjust t c ∧ dvAdjust t c ≤ 25 := by
  unfold dvAdjust
  dsimp only
  split_ifs <;> omega

theorem buildAdjust_bounds (t : String) (c : BaselineConstraints) :
    -5 ≤ buildAdjust t c ∧ buildAdjust t c ≤ 10 := by
  rcases h : searchBuild t with _ | ds <;> simp [buildAdjust, h] <;> split_ifs <;> omega

theorem archBonus_bounds (arch t : String) :
    0 ≤ archBonus arch t ∧ archBonus arch t ≤ 25 := by
  unfold archBonus
  split_ifs <;> omega

/-- C9: for every candidate, target identifier and baseline constraints,
`score_candidate` returns either the hard-reject sentinel `-10000` or an
integer between 30 and 150 inclusive; consequently the selector's
discard-if-negative filter removes exactly the hard-rejected candidates. -/
theorem c9_score_range (candidate : CatalogCandidate) (kb_id : String)
    (c : BaselineConstraints) :
    (score_candidate candidate kb_id c = -10000 ∨
      (30 ≤ score_candidate candidate kb_id c ∧ score_candidate candidate kb_id c ≤ 150)) ∧
    (0 ≤ score_candidate candidate kb_id c ↔ score_candidate candidate kb_id c ≠ -10000) := by
  have hdv := dvAdjust_bounds (strLower candidate.title) c
  have hb := buildAdjust_bounds (strLower candidate.title) c
  have ha := archBonus_bounds c.catalog_arch (strLower candidate.title)
  unfold score_candidate
  dsimp only
  split_ifs <;> omega

/-- C10: a baseline whose `Architecture` field is not recognized (not
`x64`/`amd64`, not containing `arm64`, not `x86`/`32-bit`, all
case-insensitively — including an empty or missing field) silently falls
back to the catalog architecture `"x64"`. -/
theorem c10_unknown_arch_falls_back_to_x64 (baseline : DownloaderBaseline)
    (h1 : strLower baseline.architecture ≠ "x64")
    (h2 : strLower baseline.architecture ≠ "amd64")
    (h3 : strContains (strLower baseline.architecture) "arm64" = false)
    (h4 : strLower baseline.architecture ≠ "x86")
    (h5 : strLower baseline.architecture ≠ "32-bit") :
    (build_constraints baseline).catalog_arch = "x64" := by
  simp [build_constraints, h1, h2, h3, h4, h5]

/-- Witness for C10: an empty (absent) architecture field is scored under
x64 constraints. -/
theorem c10_witness :
    (build_constraints ⟨"Windows 11 Pro", "23H2", "", "22631.2"⟩).catalog_arch = "x64" :=
  c10_unknown_arch_falls_back_to_x64 ⟨"Windows 11 Pro", "23H2", "", "22631.2"⟩
    (by decide) (by decide) (by decide) (by decide) (by decide)

/-- C8: the Month-Range Builder fails, with distinguishable errors, when
the baseline was not collected with elevated privileges and when the
starting month is absent from the baseline. -/
theorem c8_month_range_error_kinds (baseline : ScannerBaseline) (nowYM : Nat × Fin 12)
    (max_months : Nat) :
    (baseline.isAdmin = false →
      build_month_ids_from_lcu baseline nowYM max_months =
        Except.error "Baseline collected without administrative privileges. LCU detection requires elevation.") ∧
    (baseline.isAdmin = true → baseline.lcuMonthId = "" →
      build_month_ids_from_lcu baseline nowYM max_months =
        Except.error "Baseline did not provide LcuMonthId.") ∧
    ("Baseline collected without administrative privileges. LCU detection requires elevation." : String) ≠
      "Baseline did not provide LcuMonthId." := by
  refine ⟨?_, ?_, by decide⟩
  · intro h
    simp [build_month_ids_from_lcu, h]
  · intro h h2
    simp [build_month_ids_from_lcu, h, h2]

/-- Witness for C8: both failure paths at concrete baselines. -/
theorem c8_witness :
    build_month_ids_from_lcu ⟨false, "2024-Jan", "2024-Mar"⟩ (2024, 0) 48 =
      Except.error "Baseline collected without administrative privileges. LCU detection requires elevation." ∧
    build_month_ids_from_lcu ⟨true, "", "2024-Mar"⟩ (2024, 0) 48 =
      Except.error "Baseline did not provide LcuMonthId." :=
  ⟨(c8_month_range_error_kinds ⟨false, "2024-Jan", "2024-Mar"⟩ (2024, 0) 48).1 rfl,
   (c8_month_range_error_kinds ⟨true, "", "2024-Mar"⟩ (2024, 0) 48).2.1 rfl rfl⟩

/-! ## Monotonicity of the DFS accumulators -/

theorem mem_lpAdd {lp : List String} {x : String} (olds : List String) (hx : x ∈ lp) :
    x ∈ olds.foldl (fun acc old => if old ∈ acc then acc else acc ++ [old]) lp := by
  induction olds generalizing lp with
  | nil => simpa
  | cons o t ih =>
    simp only [List.foldl_cons]
    apply ih
    split_ifs with h
    · exact hx
    · exact List.mem_append_left _ hx

theorem dfsLoop_lp_mono (entries : List KbEntry) (root : String)
    (stack seen lp : List String) (pairs : List (String × String)) :
    ∀ x ∈ lp, x ∈ (dfsLoop entries root stack seen lp pairs).1 := by
  induction stack, seen, lp, pairs using dfsLoop.induct entries root with
  | case1 seen lp pairs =>
    intro x hx
    rw [dfsLoop]
    exact hx
  | case2 seen lp pairs current rest ih =>
    intro x hx
    rw [dfsLoop]
    exact ih x (mem_lpAdd _ hx)

theorem dfsFoldGen_lp_mono (entries : List KbEntry) (roots : List String) :
    ∀ (acc : List String × List (String × String)) (x : String), x ∈ acc.1 →
      x ∈ (roots.foldl (fun acc root => dfsLoop entries root [root] [root] acc.1 acc.2) acc).1 := by
  induction roots with
  | nil =>
    intro acc x hx
    simpa
  | cons r t ih =>
    intro acc x hx
    simp only [List.foldl_cons]
    exact ih _ x (dfsLoop_lp_mono entries r [r] [r] acc.1 acc.2 x hx)

/-- C2: the logically-present set returned by `compute_supersedence` is a
superset of the installed set, for every bulletin list and installed set. -/
theorem c2_logically_present_superset (kb_entries : List KbEntry)
    (installed_kbs : List String) :
    ∀ x ∈ installed_kbs, x ∈ (compute_supersedence kb_entries installed_kbs).1 := by
  intro x hx
  unfold compute_supersedence dfsFold
  exact dfsFoldGen_lp_mono kb_entries installed_kbs (installed_kbs, []) x hx

/-- Witness for C2: an installed identifier stays logically present. -/
theorem c2_witness :
    "KB5031354" ∈ (compute_supersedence [] ["KB5031354"]).1 :=
  c2_logically_present_superset [] ["KB5031354"] "KB5031354" (by decide)

/-! ## Merge idempotence (C6) -/

theorem mem_addMissing_left {cur inc : List String} {x : String} (hx : x ∈ cur) :
    x ∈ addMissing cur inc := by
  induction inc generalizing cur with
  | nil => simpa [addMissing]
  | cons y t ih =>
    show x ∈ addMissing (if y ≠ "" ∧ y ∉ cur then cur ++ [y] else cur) t
    apply ih
    split_ifs with h
    · exact List.mem_append_left _ hx
    · exact hx

theorem mem_addMissing_right {cur inc : List String} {x : String} (hx : x ∈ inc)
    (hne : x ≠ "") : x ∈ addMissing cur inc := by
  induction inc generalizing cur with
  | nil => cases hx
  | cons y t ih =>
    show x ∈ addMissing (if y ≠ "" ∧ y ∉ cur then cur ++ [y] else cur) t
    rcases List.mem_cons.mp hx with rfl | hxt
    · apply mem_addMissing_left
      split_ifs with h
      · exact List.mem_append_right _ (by simp)
      · rcases not_and_or.mp h with h1 | h2
        · exact absurd hne (by simpa using h1)
        · simpa using h2
    · exact ih hxt

theorem addMissing_eq_self {cur inc : List String} (h : ∀ x ∈ inc, x ≠ "" → x ∈ cur) :
    addMissing cur inc = cur := by
  induction inc generalizing cur with
  | nil => rfl
  | cons y t ih =>
    show addMissing (if y ≠ "" ∧ y ∉ cur then cur ++ [y] else cur) t = cur
    rw [if_neg]
    · exact ih (fun x hx hne => h x (List.mem_cons_of_mem _ hx) hne)
    · intro hcon
      exact hcon.2 (h y (List.mem_cons_self _ _) hcon.1)

theorem mergeOne_absorbs (st : List KbEntry) (e : KbEntry) (he : e.kb ≠ "") :
    absorbed (mergeOne st e) e := by
  rw [mergeOne, if_neg he]
  constructor
  · by_cases hany : st.any (fun r => decide (r.kb = e.kb))
    · obtain ⟨r, hr, hrkb⟩ := List.any_eq_true.mp hany
      rw [if_pos hany]
      refine ⟨if r.kb = e.kb then
        { r with
          months := addMissing r.months e.months
          cves := addMissing r.cves e.cves
          supersedes := addMissing r.supersedes e.supersedes } else r,
        List.mem_map_of_mem _ hr, ?_⟩
      rw [if_pos (of_decide_eq_true hrkb)]
      exact of_decide_eq_true hrkb
    · rw [if_neg hany]
      refine ⟨_, List.mem_map_of_mem _ (List.mem_append_right st (List.mem_singleton.mpr rfl)), ?_⟩
      rw [if_pos rfl]
  · intro r' hr' hkb'
    rw [List.mem_map] at hr'
    obtain ⟨r, hr, rfl⟩ := hr'
    by_cases hrkb : r.kb = e.kb
    · rw [if_pos hrkb]
      exact ⟨fun x hx hne => mem_addMissing_right hx hne,
        fun x hx hne => mem_addMissing_right hx hne,
        fun x hx hne => mem_addMissing_right hx hne⟩
    · rw [if_neg hrkb] at hkb' ⊢
      exact absurd hkb' hrkb

theorem mergeOne_preserves_absorbed (st : List KbEntry) (e e' : KbEntry)
    (h : absorbed st e) : absorbed (mergeOne st e') e := by
  by_cases he' : e'.kb = ""
  · rwa [mergeOne, if_pos he']
  rw [mergeOne, if_neg he']
  obtain ⟨⟨r0, hr0, hr0kb⟩, hall⟩ := h
  constructor
  · have hr0' : r0 ∈ (if st.any (fun r => decide (r.kb = e'.kb)) then st
        else st ++ [{ kb := e'.kb, months := [], cves := [], supersedes := [] }]) := by
      split_ifs
      · exact hr0
      · exact List.mem_append_left _ hr0
    refine ⟨_, List.mem_map_of_mem _ hr0', ?_⟩
    split_ifs with hcond
    · exact hr0kb
    · exact hr0kb
  · intro r' hr' hkb'
    rw [List.mem_map] at hr'
    obtain ⟨r, hr, rfl⟩ := hr'
    have hrkb : r.kb = e.kb := by
      by_cases hc : r.kb = e'.kb
      · rwa [if_pos hc] at hkb'
      · rwa [if_neg hc] at hkb'
    by_cases hrst : r ∈ st
    · have hsup := hall r hrst hrkb
      by_cases hc : r.kb = e'.kb
      · rw [if_pos hc]
        exact ⟨fun x hx hne => mem_addMissing_left (hsup.1 x hx hne),
          fun x hx hne => mem_addMissing_left (hsup.2.1 x hx hne),
          fun x hx hne => mem_addMissing_left (hsup.2.2 x hx hne)⟩
      · rw [if_neg hc]
        exact hsup
    · exfalso
      by_cases hany : st.any (fun r => decide (r.kb = e'.kb))
      · rw [if_pos hany] at hr
        exact hrst hr
      · rw [if_neg hany] at hr
        rcases List.mem_append.mp hr with hmem | hmem
        · exact hrst hmem
        · have : r = { kb := e'.kb, months := [], cves := [], supersedes := [] } := by
            simpa using hmem
          rw [List.any_eq_true] at hany
          push_neg at hany
          have := hany r0 hr0
          apply this
          simp only [decide_eq_true_eq]
          rw [hr0kb, ← hrkb, ‹r = _›]


theorem mergeOne_eq_self (st : List KbEntry) (e : KbEntry)
    (h : e.kb = "" ∨ absorbed st e) : mergeOne st e = st := by
  rcases h with h | h
  · rw [mergeOne, if_pos h]
  · obtain ⟨⟨r0, hr0, hr0kb⟩, hall⟩ := h
    rcases em (e.kb = "") with he | he
    · rw [mergeOne, if_pos he]
    rw [mergeOne, if_neg he]
    have hany : st.any (fun r => decide (r.kb = e.kb)) = true :=
      List.any_eq_true.mpr ⟨r0, hr0, by simp [hr0kb]⟩
    rw [if_pos hany]
    have hpt : ∀ r ∈ st, (if r.kb = e.kb then
        { r with
          months := addMissing r.months e.months
          cves := addMissing r.cves e.cves
          supersedes := addMissing r.supersedes e.supersedes } else r) = r := by
      intro r hr
      split_ifs with hc
      · have hsup := hall r hr hc
        rw [addMissing_eq_self hsup.1, addMissing_eq_self hsup.2.1,
          addMissing_eq_self hsup.2.2]
      · rfl
    rw [List.map_congr_left hpt]
    exact List.map_id st

theorem merge_eq_self (st : List KbEntry) (inc : List KbEntry)
    (h : ∀ e ∈ inc, e.kb ≠ "" → absorbed st e) : merge_kb_entries st inc = st := by
  induction inc with
  | nil => rfl
  | cons y t ih =>
    show merge_kb_entries (mergeOne st y) t = st
    have hy : mergeOne st y = st := by
      apply mergeOne_eq_self
      rcases em (y.kb = "") with hk | hk
      · exact Or.inl hk
      · exact Or.inr (h y (List.mem_cons_self _ _) hk)
    rw [hy]
    exact ih (fun e he hne => h e (List.mem_cons_of_mem _ he) hne)

theorem absorbed_merge (st : List KbEntry) (e : KbEntry) (inc : List KbEntry)
    (h : absorbed st e) : absorbed (merge_kb_entries st inc) e := by
  induction inc generalizing st with
  | nil => exact h
  | cons y t ih =>
    show absorbed (merge_kb_entries (mergeOne st y) t) e
    exact ih _ (mergeOne_preserves_absorbed st e y h)

theorem merge_absorbs (st : List KbEntry) (inc : List KbEntry) :
    ∀ e ∈ inc, e.kb ≠ "" → absorbed (merge_kb_entries st inc) e := by
  induction inc generalizing st with
  | nil => intro e he; cases he
  | cons y t ih =>
    intro e he hne
    rcases List.mem_cons.mp he with rfl | het
    · show absorbed (merge_kb_entries (mergeOne st e) t) e
      exact absorbed_merge _ _ _ (mergeOne_absorbs st e hne)
    · exact ih (mergeOne st y) e het hne

/-- C6: merge is idempotent — applying `merge_kb_entries` with the same
incoming records twice yields the same normalized index as applying it
once (in fact the indexes are equal even before normalization). -/
theorem c6_merge_idempotent (existing incoming : List KbEntry) :
    normalizeIndex (merge_kb_entries (merge_kb_entries existing incoming) incoming) =
      normalizeIndex (merge_kb_entries existing incoming) := by
  rw [merge_eq_self _ _ (merge_absorbs existing incoming)]

/-- C5: `compute_supersedence` terminates for every input, including
supersedes relations that contain cycles: the embedded DFS is a total
function (its termination is justified by the per-root seen set), and a
two-cycle input evaluates without looping. -/
theorem c5_supersedence_terminates (kb_entries : List KbEntry) (installed_kbs : List String) :
    (∃ lp sb, compute_supersedence kb_entries installed_kbs = (lp, sb)) ∧
    compute_supersedence [⟨"KB1", [], [], ["KB2"]⟩, ⟨"KB2", [], [], ["KB1"]⟩] ["KB1"] =
      (["KB1", "KB2"], [("KB2", ["KB1"]), ("KB1", ["KB1"])]) := by
  refine ⟨⟨_, _, rfl⟩, ?_⟩
  simp +decide [compute_supersedence, dfsFold, dfsLoop, supersedesOf, supersededByList,
    sortStrings]

/-! ## DFS completeness (C4) -/

theorem dfsLoop_pairs_mono (entries : List KbEntry) (root : String)
    (stack seen lp : List String) (pairs : List (String × String)) :
    ∀ q ∈ pairs, q ∈ (dfsLoop entries root stack seen lp pairs).2 := by
  induction stack, seen, lp, pairs using dfsLoop.induct entries root with
  | case1 seen lp pairs =>
    intro q hq
    rw [dfsLoop]
    exact hq
  | case2 seen lp pairs current rest ih =>
    intro q hq
    rw [dfsLoop]
    exact ih q (List.mem_append_left _ hq)

theorem dfsLoop_complete (entries : List KbEntry) (root : String)
    (stack seen lp : List String) (pairs : List (String × String)) :
    dfsInv entries root stack seen pairs → (∀ x ∈ stack, x ∈ seen) →
    ∀ x ∈ seen, ∀ n, ReachStar entries x n →
      rootProcessed entries root (dfsLoop entries root stack seen lp pairs).2 n := by
  induction stack, seen, lp, pairs using dfsLoop.induct entries root with
  | case1 seen lp pairs =>
    intro hinv _ x hx n hreach
    rw [dfsLoop]
    have hseen : ∀ m, ReachStar entries x m → m ∈ seen := by
      intro m hm
      induction hm with
      | refl => exact hx
      | tail hab hbc ih' =>
        rcases hinv _ ih' with hstack | hproc
        · simp at hstack
        · exact hproc.2 _ hbc
    rcases hinv n (hseen n hreach) with hstack | hproc
    · simp at hstack
    · exact hproc.1
  | case2 seen lp pairs current rest ih =>
    intro hinv hsub x hx n hreach
    rw [dfsLoop]
    apply ih
    · intro z hz
      rw [List.mem_append] at hz
      rcases hz with hzseen | hznew
      · rcases hinv z hzseen with hzstack | hzproc
        · rcases List.mem_cons.mp hzstack with rfl | hzrest
          · right
            constructor
            · intro old hold
              exact List.mem_append_right _ (List.mem_map_of_mem _ hold)
            · intro old hold
              rw [List.mem_append]
              by_cases hos : old ∈ seen
              · exact Or.inl hos
              · exact Or.inr (List.mem_filter.mpr ⟨hold, by simpa⟩)
          · left
            exact List.mem_append_right _ hzrest
        · right
          exact ⟨fun old hold => List.mem_append_left _ (hzproc.1 old hold),
            fun old hold => List.mem_append_left _ (hzproc.2 old hold)⟩
      · left
        exact List.mem_append_left _ (List.mem_reverse.mpr hznew)
    · intro z hz
      rw [List.mem_append] at hz ⊢
      rcases hz with hz | hz
      · exact Or.inr (List.mem_reverse.mp hz)
      · exact Or.inl (hsub z (List.mem_cons_of_mem _ hz))
    · exact List.mem_append_left _ hx
    · exact hreach

theorem dfsLoop_root_attribution (entries : List KbEntry) (root : String)
    (lp : List String) (pairs : List (String × String)) :
    ∀ y, ReachPlus entries root y →
      (y, root) ∈ (dfsLoop entries root [root] [root] lp pairs).2 := by
  rintro y ⟨n, hreach, hold⟩
  have hinv : dfsInv entries root [root] [root] pairs := fun x hx => Or.inl hx
  exact dfsLoop_complete entries root [root] [root] lp pairs hinv (fun x hx => hx)
    root (List.mem_cons_self _ _) n hreach y hold

theorem dfsFoldGen_pairs_mono (entries : List KbEntry) (roots : List String) :
    ∀ (acc : List String × List (String × String)) (q : String × String), q ∈ acc.2 →
      q ∈ (roots.foldl (fun acc root => dfsLoop entries root [root] [root] acc.1 acc.2) acc).2 := by
  induction roots with
  | nil =>
    intro acc q hq
    simpa
  | cons r t ih =>
    intro acc q hq
    simp only [List.foldl_cons]
    exact ih _ q (dfsLoop_pairs_mono entries r [r] [r] acc.1 acc.2 q hq)

theorem dfsFold_attribution (entries : List KbEntry) (installed : List String) :
    ∀ root ∈ installed, ∀ y, ReachPlus entries root y →
      (y, root) ∈ (dfsFold entries installed).2 := by
  unfold dfsFold
  suffices h : ∀ (roots : List String) (acc : List String × List (String × String)),
      ∀ root ∈ roots, ∀ y, ReachPlus entries root y →
        (y, root) ∈ (roots.foldl
          (fun acc root => dfsLoop entries root [root] [root] acc.1 acc.2) acc).2 by
    intro root hr y hy
    exact h installed _ root hr y hy
  intro roots
  induction roots with
  | nil =>
    intro acc root hr
    simp at hr
  | cons r t ih =>
    intro acc root hr y hy
    simp only [List.foldl_cons]
    rcases List.mem_cons.mp hr with rfl | hrt
    · exact dfsFoldGen_pairs_mono entries t _ _
        (dfsLoop_root_attribution entries root acc.1 acc.2 y hy)
    · exact ih _ root hrt y hy

theorem find?_map_key {β : Type} (f : String → β) (keys : List String) (y : String)
    (hy : y ∈ keys) :
    List.find? (fun p => decide (p.1 = y)) (keys.map (fun k => (k, f k))) = some (y, f y) := by
  induction keys with
  | nil => cases hy
  | cons k t ih =>
    rcases List.mem_cons.mp hy with rfl | hyt
    · simp
    · by_cases hk : k = y
      · subst hk
        simp
      · have hfalse : (decide ((k, f k).1 = y)) = false := by simp [hk]
        simp only [List.map_cons, List.find?_cons, hfalse]
        exact ih hyt

theorem lookupSB_attribution (pairs : List (String × String)) (y root : String)
    (h : (y, root) ∈ pairs) :
    ∃ l, lookupSB (supersededByList pairs) y = some l ∧ root ∈ l := by
  have hy : y ∈ (pairs.map Prod.fst).dedup :=
    List.mem_dedup.mpr (List.mem_map_of_mem Prod.fst h)
  refine ⟨sortStrings ((pairs.filter (fun p => decide (p.1 = y))).map Prod.snd).dedup, ?_, ?_⟩
  · unfold lookupSB supersededByList
    rw [find?_map_key _ _ y hy]
    rfl
  · unfold sortStrings
    rw [List.mem_mergeSort, List.mem_dedup]
    refine List.mem_map.mpr ⟨(y, root), ?_, rfl⟩
    exact List.mem_filter.mpr ⟨h, by simp⟩

theorem sortStrings_pairwise_le (l : List String) :
    (sortStrings l).Pairwise (· ≤ ·) := by
  have htrans : ∀ a b c : String,
      (decide (a ≤ b)) = true → (decide (b ≤ c)) = true → (decide (a ≤ c)) = true := by
    intro a b c hab hbc
    simp only [decide_eq_true_eq] at hab hbc ⊢
    exact le_trans hab hbc
  have htotal : ∀ a b : String, ((decide (a ≤ b)) || (decide (b ≤ a))) = true := by
    intro a b
    rcases le_total a b with h | h <;> simp [h]
  have hs := List.sorted_mergeSort htrans htotal l
  exact hs.imp (fun h => of_decide_eq_true h)

theorem lookupSB_sorted (pairs : List (String × String)) (k : String) (l : List String)
    (h : lookupSB (supersededByList pairs) k = some l) : l.Pairwise (· ≤ ·) := by
  unfold lookupSB at h
  rcases hfind : (supersededByList pairs).find? (fun p => decide (p.1 = k)) with _ | p
  · rw [hfind] at h
    cases h
  · rw [hfind] at h
    injection h with h
    subst h
    have hp := List.mem_of_find?_eq_some hfind
    unfold supersededByList at hp
    rw [List.mem_map] at hp
    obtain ⟨k0, hk0, rfl⟩ := hp
    exact sortStrings_pairwise_le _

/-- C4: superseded-by attribution is to the installed traversal root: every
identifier reached transitively from an installed root is attributed to
that root (accumulating all such roots across independent traversals), the
superseded-by map values are sorted lists, and the concrete two-step chain
from the spec receives root attribution rather than immediate-parent
attribution. -/
theorem c4_superseded_by_root_attribution :
    (∀ (kb_entries : List KbEntry) (installed_kbs : List String) (root old : String),
        root ∈ installed_kbs → ReachPlus kb_entries root old →
        ∃ l, lookupSB (compute_supersedence kb_entries installed_kbs).2 old = some l ∧
          root ∈ l) ∧
    (∀ (kb_entries : List KbEntry) (installed_kbs : List String) (k : String)
        (l : List String),
        lookupSB (compute_supersedence kb_entries installed_kbs).2 k = some l →
        l.Pairwise (· ≤ ·)) ∧
    compute_supersedence
        [⟨"KB5031354", [], [], ["KB5029351"]⟩, ⟨"KB5029351", [], [], ["KB5026372"]⟩]
        ["KB5031354"] =
      (["KB5031354", "KB5029351", "KB5026372"],
        [("KB5029351", ["KB5031354"]), ("KB5026372", ["KB5031354"])]) := by
  refine ⟨?_, ?_, ?_⟩
  · intro kb_entries installed_kbs root old hr hreach
    simp only [compute_supersedence]
    exact lookupSB_attribution _ old root
      (dfsFold_attribution kb_entries installed_kbs root hr old hreach)
  · intro kb_entries installed_kbs k l h
    simp only [compute_supersedence] at h
    exact lookupSB_sorted _ k l h
  · simp +decide [compute_supersedence, dfsFold, dfsLoop, supersedesOf, supersededByList,
      sortStrings]

/-- Witness for C4: in the two-step chain, the transitively superseded
KB5026372 is attributed to the installed root KB5031354. -/
theorem c4_witness :
    ∃ l, lookupSB (compute_supersedence
        [⟨"KB5031354", [], [], ["KB5029351"]⟩, ⟨"KB5029351", [], [], ["KB5026372"]⟩]
        ["KB5031354"]).2 "KB5026372" = some l ∧ "KB5031354" ∈ l :=
  c4_superseded_by_root_attribution.1 _ _ "KB5031354" "KB5026372" (by decide)
    ⟨"KB5029351", Relation.ReflTransGen.single (by simp only [supStep]; decide),
      by decide⟩

/-! ## Architecture constraints in scoring (C3) -/

theorem archBonus_eq_zero (arch t : String) (hno : ¬ ownArchMarker arch t) :
    archBonus arch t = 0 := by
  unfold archBonus
  rw [if_neg (fun hc => hno (Or.inl hc)), if_neg (fun hc => hno (Or.inr (Or.inl hc))),
    if_neg (fun hc => hno (Or.inr (Or.inr hc)))]

theorem archBonus_eq_25 (arch t : String) (hown : ownArchMarker arch t) :
    archBonus arch t = 25 := by
  unfold archBonus
  rcases hown with ⟨ha, hm⟩ | ⟨ha, hm⟩ | ⟨ha, hm⟩
  · rw [if_pos ⟨ha, hm⟩]
  · rw [if_neg, if_pos ⟨ha, hm⟩]
    rintro ⟨hx, -⟩
    rw [ha] at hx
    exact absurd hx (by decide)
  · rw [if_neg, if_neg, if_pos ⟨ha, hm⟩]
    · rintro ⟨hx, -⟩
      rw [ha] at hx
      exact absurd hx (by decide)
    · rintro ⟨hx, -⟩
      rw [ha] at hx
      exact absurd hx (by decide)

theorem dvAdjust_congr (t t' : String) (c : BaselineConstraints)
    (hdv : strContains t' (strStrip (strLower c.display_version)) =
      strContains t (strStrip (strLower c.display_version)))
    (hhalf : hasHalfYearToken t' = hasHalfYearToken t) :
    dvAdjust t' c = dvAdjust t c := by
  unfold dvAdjust
  dsimp only
  rw [hdv, hhalf]

theorem buildAdjust_congr (t t' : String) (c : BaselineConstraints)
    (hb : searchBuild t' = searchBuild t) :
    buildAdjust t' c = buildAdjust t c := by
  unfold buildAdjust
  rw [hb]

/-- The value of `score_candidate` on a candidate that passes every
hard-reject rule: the base 50 plus the generation, architecture,
display-version and build adjustments. -/
theorem score_candidate_accepted (candidate : CatalogCandidate) (kb_id : String)
    (c : BaselineConstraints)
    (hkb : strContains (strLower candidate.title) (strLower kb_id) = true)
    (h1 : ¬(c.windows_gen = "windows 10" ∧
      strContains (strLower candidate.title) "windows 11" = true))
    (h2 : ¬(c.windows_gen = "windows 11" ∧
      strContains (strLower candidate.title) "windows 10" = true))
    (h3 : ¬(strStartsWith c.windows_gen "windows " = true ∧
      strContains (strLower candidate.title) "server" = true))
    (h4 : ¬ wrongArchMarker c.catalog_arch (strLower candidate.title)) :
    score_candidate candidate kb_id c =
      50 + (if c.windows_gen ≠ "" ∧ strContains (strLower candidate.title) c.windows_gen = true
              then 40 else 0)
        + archBonus c.catalog_arch (strLower candidate.title)
        + dvAdjust (strLower candidate.title) c
        + buildAdjust (strLower candidate.title) c := by
  unfold score_candidate
  dsimp only
  rw [if_neg (not_not_intro hkb), if_neg h1, if_neg h2, if_neg h3,
    if_neg (fun hc => h4 (Or.inl hc)), if_neg (fun hc => h4 (Or.inr (Or.inl hc))),
    if_neg (fun hc => h4 (Or.inr (Or.inr hc)))]
  omega

/-- C3: for a candidate whose title contains the target token, a
wrong-family architecture marker always yields the hard-reject sentinel
regardless of other positive signals; and adding the baseline's own
architecture marker to an otherwise-matching title that lacked it (leaving
every other scoring signal unchanged) strictly increases the score by
exactly 25. -/
theorem c3_architecture_scoring (candidate : CatalogCandidate) (kb_id : String)
    (c : BaselineConstraints)
    (harch : c.catalog_arch = "x64" ∨ c.catalog_arch = "arm64" ∨ c.catalog_arch = "x86") :
    (strContains (strLower candidate.title) (strLower kb_id) = true →
      wrongArchMarker c.catalog_arch (strLower candidate.title) →
      score_candidate candidate kb_id c = -10000) ∧
    (∀ candidate' : CatalogCandidate,
      strContains (strLower candidate.title) (strLower kb_id) = true →
      strContains (strLower candidate'.title) (strLower kb_id) = true →
      ¬(c.windows_gen = "windows 10" ∧
        strContains (strLower candidate.title) "windows 11" = true) →
      ¬(c.windows_gen = "windows 11" ∧
        strContains (strLower candidate.title) "windows 10" = true) →
      ¬(strStartsWith c.windows_gen "windows " = true ∧
        strContains (strLower candidate.title) "server" = true) →
      strContains (strLower candidate'.title) "windows 10" =
        strContains (strLower candidate.title) "windows 10" →
      strContains (strLower candidate'.title) "windows 11" =
        strContains (strLower candidate.title) "windows 11" →
      strContains (strLower candidate'.title) "server" =
        strContains (strLower candidate.title) "server" →
      strContains (strLower candidate'.title) c.windows_gen =
        strContains (strLower candidate.title) c.windows_gen →
      ¬ wrongArchMarker c.catalog_arch (strLower candidate.title) →
      ¬ wrongArchMarker c.catalog_arch (strLower candidate'.title) →
      ¬ ownArchMarker c.catalog_arch (strLower candidate.title) →
      ownArchMarker c.catalog_arch (strLower candidate'.title) →
      strContains (strLower candidate'.title) (strStrip (strLower c.display_version)) =
        strContains (strLower candidate.title) (strStrip (strLower c.display_version)) →
      hasHalfYearToken (strLower candidate'.title) =
        hasHalfYearToken (strLower candidate.title) →
      searchBuild (strLower candidate'.title) = searchBuild (strLower candidate.title) →
      score_candidate candidate' kb_id c = score_candidate candidate kb_id c + 25) := by
  constructor
  · intro hkb hwrong
    unfold score_candidate
    dsimp only
    rw [if_neg (not_not_intro hkb)]
    split_ifs with g1 g2 g3 g4 g5 g6 g7 <;> try rfl
    all_goals
      exfalso
      rcases hwrong with hc | hc | hc
      exacts [g4 hc, g5 hc, g6 hc]
  · intro candidate' hkb hkb' h1 h2 h3 hw10 hw11 hsrv hgen hnw hnw' hno hown hdv hhalf hbuild
    have h1' : ¬(c.windows_gen = "windows 10" ∧
        strContains (strLower candidate'.title) "windows 11" = true) := by
      rintro ⟨hg, hc⟩
      exact h1 ⟨hg, by rw [← hw11]; exact hc⟩
    have h2' : ¬(c.windows_gen = "windows 11" ∧
        strContains (strLower candidate'.title) "windows 10" = true) := by
      rintro ⟨hg, hc⟩
      exact h2 ⟨hg, by rw [← hw10]; exact hc⟩
    have h3' : ¬(strStartsWith c.windows_gen "windows " = true ∧
        strContains (strLower candidate'.title) "server" = true) := by
      rintro ⟨hg, hc⟩
      exact h3 ⟨hg, by rw [← hsrv]; exact hc⟩
    rw [score_candidate_accepted candidate' kb_id c hkb' h1' h2' h3' hnw',
      score_candidate_accepted candidate kb_id c hkb h1 h2 h3 hnw,
      archBonus_eq_zero _ _ hno, archBonus_eq_25 _ _ hown,
      dvAdjust_congr _ _ _ hdv hhalf, buildAdjust_congr _ _ _ hbuild, hgen]
    omega

/-- Witness for C3: with an x64 baseline, an ARM64-marked title is
hard-rejected, and appending the x64 marker to a marker-free matching
title raises its score by exactly 25. -/
theorem c3_witness :
    score_candidate ⟨"", "Update for Windows 11 Version 23H2 for ARM64-based Systems (KB5031354)",
        "", "", "", "", ""⟩ "KB5031354" ⟨"windows 11", "23H2", "22631", "x64"⟩ = -10000 ∧
    score_candidate ⟨"", "Update for Windows 11 Version 23H2 (KB5031354) for x64-based Systems",
        "", "", "", "", ""⟩ "KB5031354" ⟨"windows 11", "23H2", "22631", "x64"⟩ =
      score_candidate ⟨"", "Update for Windows 11 Version 23H2 (KB5031354)",
        "", "", "", "", ""⟩ "KB5031354" ⟨"windows 11", "23H2", "22631", "x64"⟩ + 25 := by
  constructor
  · exact (c3_architecture_scoring
      ⟨"", "Update for Windows 11 Version 23H2 for ARM64-based Systems (KB5031354)",
        "", "", "", "", ""⟩ "KB5031354" ⟨"windows 11", "23H2", "22631", "x64"⟩
      (Or.inl rfl)).1 (by decide) (Or.inl ⟨rfl, Or.inl (by decide)⟩)
  · exact (c3_architecture_scoring
      ⟨"", "Update for Windows 11 Version 23H2 (KB5031354)", "", "", "", "", ""⟩
      "KB5031354" ⟨"windows 11", "23H2", "22631", "x64"⟩ (Or.inl rfl)).2
      ⟨"", "Update for Windows 11 Version 23H2 (KB5031354) for x64-based Systems",
        "", "", "", "", ""⟩
      (by decide) (by decide)
      (by simp only [wrongArchMarker]; decide) (by simp only [wrongArchMarker]; decide)
      (by simp only [wrongArchMarker]; decide) (by decide) (by decide) (by decide) (by decide)
      (by simp only [wrongArchMarker]; decide) (by simp only [wrongArchMarker]; decide)
      (by simp only [ownArchMarker]; decide) (by simp only [ownArchMarker]; decide)
      (by decide) (by decide) (by decide)

/-! ## Month-range closed form (C7) -/

theorem ymLt_iff (a b : Nat × Fin 12) : ymLt a b ↔ ymIdx a < ymIdx b := by
  obtain ⟨a1, a2⟩ := a
  obtain ⟨b1, b2⟩ := b
  have h1 := a2.isLt
  have h2 := b2.isLt
  simp only [ymLt, ymIdx, Fin.lt_def]
  omega

theorem fmtIdx_ymIdx (y : Nat) (m : Fin 12) : fmtIdx (ymIdx (y, m)) = fmtMonth y m := by
  have hm := m.isLt
  have h1 : ymIdx (y, m) / 12 = y := by
    simp only [ymIdx]
    omega
  have h2 : ymIdx (y, m) % 12 = m.val := by
    simp only [ymIdx]
    omega
  simp only [fmtIdx, ymOfIdx, h1]
  congr 1
  exact Fin.ext h2

theorem monthLoop_spec (endYM : Nat × Fin 12) (max_months : Nat) :
    ∀ (d y : Nat) (m : Fin 12) (acc : List String),
      ymIdx endYM + 1 - ymIdx (y, m) = d →
      acc.length < max_months →
      monthLoop endYM max_months y m acc =
        acc ++ ((List.range d).map
          (fun i => fmtIdx (ymIdx (y, m) + i))).take (max_months - acc.length) := by
  intro d
  induction d using Nat.strong_induction_on with
  | _ d ih =>
    intro y m acc hd hacc
    rw [monthLoop]
    by_cases hstop : ymLt endYM (y, m)
    · rw [if_pos hstop]
      have hd0 : d = 0 := by
        rw [ymLt_iff] at hstop
        omega
      subst hd0
      simp
    · rw [if_neg hstop]
      dsimp only
      rw [ymLt_iff, not_lt] at hstop
      obtain ⟨d', rfl⟩ : ∃ d', d = d' + 1 := ⟨d - 1, by omega⟩
      by_cases hbreak : (y, m) = endYM ∨ max_months ≤ (acc ++ [fmtMonth y m]).length
      · rw [if_pos hbreak]
        rcases hbreak with hEnd | hcap
        · have hde : ymIdx endYM = ymIdx (y, m) := by rw [← hEnd]
          have hd'0 : d' = 0 := by omega
          subst hd'0
          have hr1 : List.range (0 + 1) = [0] := rfl
          rw [hr1, List.map_cons, List.map_nil]
          rw [List.take_of_length_le (by simp; omega)]
          simp [fmtIdx_ymIdx]
        · have hm1 : max_months - acc.length = 1 := by
            simp only [List.length_append, List.length_cons, List.length_nil] at hcap
            omega
          rw [hm1, List.range_succ_eq_map, List.map_cons, List.take_succ_cons,
            List.take_zero]
          simp [fmtIdx_ymIdx]
      · rw [if_neg hbreak]
        push_neg at hbreak
        have hacclen : (acc ++ [fmtMonth y m]).length < max_months := hbreak.2
        have hkey : ∀ (y' : Nat) (m' : Fin 12), ymIdx (y', m') = ymIdx (y, m) + 1 →
            monthLoop endYM max_months y' m' (acc ++ [fmtMonth y m]) =
              acc ++ ((List.range (d' + 1)).map
                (fun i => fmtIdx (ymIdx (y, m) + i))).take (max_months - acc.length) := by
          intro y' m' hidx
          have hrec := ih d' (by omega) y' m' (acc ++ [fmtMonth y m])
            (by rw [hidx]; omega) hacclen
          rw [hrec, hidx]
          have hsplit : (List.range (d' + 1)).map (fun i => fmtIdx (ymIdx (y, m) + i)) =
              fmtMonth y m ::
                (List.range d').map (fun i => fmtIdx (ymIdx (y, m) + 1 + i)) := by
            rw [List.range_succ_eq_map, List.map_cons, List.map_map]
            congr 1
            · rw [Nat.add_zero]
              exact fmtIdx_ymIdx y m
            · apply List.map_congr_left
              intro i _
              simp only [Function.comp_apply]
              congr 1
              omega
          rw [hsplit]
          have hlen : (acc ++ [fmtMonth y m]).length = acc.length + 1 := by simp
          have htake : max_months - acc.length =
              (max_months - (acc ++ [fmtMonth y m]).length) + 1 := by
            rw [hlen]
            omega
          rw [htake, List.take_succ_cons]
          simp
        by_cases hm11 : m.val = 11
        · rw [dif_pos hm11]
          apply hkey
          simp only [ymIdx]
          omega
        · rw [dif_neg hm11]
          apply hkey
          simp only [ymIdx]
          have := m.isLt
          omega

/-- C7: for a baseline with well-formed start and end months, the
Month-Range Builder returns the consecutive calendar months from the
(clamped) start month to the end month inclusive, in chronological order,
capped at `max_months`; when the start month is after the end month it
returns exactly the single end month. -/
theorem c7_month_range (baseline : ScannerBaseline) (nowYM : Nat × Fin 12)
    (max_months : Nat) (hmax : 0 < max_months) (hadmin : baseline.isAdmin = true)
    (startYM endYM : Nat × Fin 12)
    (hlcu : parseMonthId baseline.lcuMonthId = some startYM)
    (hmsrc : baseline.msrcLatestMonthId ≠ "")
    (hend : parseMonthId baseline.msrcLatestMonthId = some endYM) :
    build_month_ids_from_lcu baseline nowYM max_months =
      Except.ok (specMonthRange (if ymLt endYM startYM then endYM else startYM) endYM
        max_months) ∧
    (specMonthRange (if ymLt endYM startYM then endYM else startYM) endYM
        max_months).length ≤ max_months ∧
    (ymLt endYM startYM →
      specMonthRange (if ymLt endYM startYM then endYM else startYM) endYM max_months =
        [fmtMonth endYM.1 endYM.2]) := by
  have hlne : baseline.lcuMonthId ≠ "" := by
    intro h
    rw [h, show parseMonthId "" = none from rfl] at hlcu
    exact Option.noConfusion hlcu
  refine ⟨?_, ?_, ?_⟩
  · unfold build_month_ids_from_lcu
    rw [if_neg (by simp [hadmin]), if_neg hlne, if_pos hmsrc, hend, hlcu]
    dsimp only
    congr 1
    have h0 : ([] : List String).length < max_months := by simpa using hmax
    rw [monthLoop_spec endYM max_months
      (ymIdx endYM + 1 -
        ymIdx ((if ymLt endYM startYM then endYM else startYM).1,
          (if ymLt endYM startYM then endYM else startYM).2))
      (if ymLt endYM startYM then endYM else startYM).1
      (if ymLt endYM startYM then endYM else startYM).2 [] rfl h0]
    simp [specMonthRange]
  · simp only [specMonthRange]
    rw [List.length_take]
    omega
  · intro hlt
    rw [if_pos hlt]
    obtain ⟨e1, e2⟩ := endYM
    simp only [specMonthRange]
    have h1 : ymIdx (e1, e2) + 1 - ymIdx (e1, e2) = 1 := by omega
    have hr1 : List.range 1 = [0] := rfl
    rw [h1, hr1, List.map_cons, List.map_nil,
      List.take_of_length_le (by simp; omega), Nat.add_zero, fmtIdx_ymIdx]

/-- Witness for C7: the spec's month-range scenario, start ⟪2024-Jan⟫ and
end ⟪2024-Mar⟫. -/
theorem c7_witness :
    build_month_ids_from_lcu ⟨true, "2024-Jan", "2024-Mar"⟩ (2025, 0) 48 =
      Except.ok ["2024-Jan", "2024-Feb", "2024-Mar"] := by
  have h := (c7_month_range ⟨true, "2024-Jan", "2024-Mar"⟩ (2025, 0) 48
    (by decide) rfl (2024, 0) (2024, 2) (by decide) (by decide) (by decide)).1
  rw [h]
  congr 1

/-! ## Selector threshold and stable tie-break (C1) -/

theorem firstBest_eq_none (l : List (Int × CatalogCandidate)) :
    firstBest l = none ↔ l = [] := by
  induction l with
  | nil => simp [firstBest]
  | cons p t ih =>
    rcases h : firstBest t with _ | q
    · simp [firstBest, h]
    · simp only [firstBest, h]
      split_ifs <;> simp

theorem firstBest_spec (l : List (Int × CatalogCandidate)) (q : Int × CatalogCandidate)
    (h : firstBest l = some q) :
    ∃ l₁ l₂, l = l₁ ++ q :: l₂ ∧ (∀ p ∈ l₁, p.1 < q.1) ∧ ∀ p ∈ l, p.1 ≤ q.1 := by
  induction l generalizing q with
  | nil => cases h
  | cons p t ih =>
    rcases hft : firstBest t with _ | r
    · simp only [firstBest, hft] at h
      injection h with h
      subst h
      have ht : t = [] := (firstBest_eq_none t).mp hft
      subst ht
      exact ⟨[], [], rfl, by simp, by simp⟩
    · simp only [firstBest, hft] at h
      obtain ⟨t₁, t₂, hteq, hlt, hle⟩ := ih r hft
      split_ifs at h with hgt
      · injection h with h
        subst h
        refine ⟨p :: t₁, t₂, by rw [hteq, List.cons_append], ?_, ?_⟩
        · intro x hx
          rcases List.mem_cons.mp hx with rfl | hx
          · exact hgt
          · exact hlt x hx
        · intro x hx
          rcases List.mem_cons.mp hx with rfl | hx
          · exact le_of_lt hgt
          · exact hle x hx
      · injection h with h
        subst h
        refine ⟨[], t, rfl, by simp, ?_⟩
        intro x hx
        rcases List.mem_cons.mp hx with rfl | hx
        · exact le_refl _
        · exact le_trans (hle x hx) (not_lt.mp hgt)

theorem descLE_trans : ∀ a b c : Int × CatalogCandidate,
    descLE a b = true → descLE b c = true → descLE a c = true := by
  intro a b c hab hbc
  simp only [descLE, decide_eq_true_eq] at hab hbc ⊢
  omega

theorem descLE_total : ∀ a b : Int × CatalogCandidate,
    (descLE a b || descLE b a) = true := by
  intro a b
  simp only [descLE, Bool.or_eq_true, decide_eq_true_eq]
  omega

/-- The head of the stable descending sort is the first pair attaining the
maximal score. -/
theorem head_mergeSort_descLE (l : List (Int × CatalogCandidate))
    (q : Int × CatalogCandidate) (h : firstBest l = some q) :
    ∃ rest, l.mergeSort descLE = q :: rest := by
  obtain ⟨l₁, l₂, hleq, hlt, hle⟩ := firstBest_spec l q h
  rcases hms : l.mergeSort descLE with _ | ⟨h0, t0⟩
  · exfalso
    have hp := List.mergeSort_perm l descLE
    rw [hms] at hp
    have hnil : l = [] := hp.symm.eq_nil
    rw [hnil] at h
    exact Option.noConfusion h
  · refine ⟨t0, ?_⟩
    have hsorted := List.sorted_mergeSort descLE_trans descLE_total l
    rw [hms] at hsorted
    have hmem : h0 ∈ l := by
      have hh : h0 ∈ l.mergeSort descLE := by
        rw [hms]
        exact List.mem_cons_self _ _
      exact List.mem_mergeSort.mp hh
    have hmax : ∀ x ∈ l, x.1 ≤ h0.1 := by
      intro x hx
      have hx' : x ∈ h0 :: t0 := by
        rw [← hms]
        exact List.mem_mergeSort.mpr hx
      rcases List.mem_cons.mp hx' with rfl | hx'
      · exact le_refl _
      · have hd := (List.pairwise_cons.mp hsorted).1 x hx'
        simpa [descLE] using hd
    have hq1 : q.1 = h0.1 :=
      le_antisymm
        (hmax q (by rw [hleq]; exact List.mem_append_right _ (List.mem_cons_self _ _)))
        (hle h0 hmem)
    by_cases heq : h0 = q
    · rw [heq]
    exfalso
    have hSpw : (l.filter (fun x => decide (x.1 = q.1))).Pairwise
        (fun a b => descLE a b = true) := by
      apply List.pairwise_of_forall_mem_list
      intro a ha b hb
      have ha' := (List.mem_filter.mp ha).2
      have hb' := (List.mem_filter.mp hb).2
      simp only [decide_eq_true_eq] at ha' hb'
      simp only [descLE, decide_eq_true_eq]
      omega
    have hSms := List.sublist_mergeSort descLE_trans descLE_total hSpw
      (List.filter_sublist l)
    rw [hms] at hSms
    have hfilter : l.filter (fun x => decide (x.1 = q.1)) =
        q :: l₂.filter (fun x => decide (x.1 = q.1)) := by
      rw [hleq, List.filter_append, List.filter_cons]
      have h1 : l₁.filter (fun x => decide (x.1 = q.1)) = [] := by
        rw [List.filter_eq_nil_iff]
        intro x hx
        have := hlt x hx
        simp only [decide_eq_true_eq]
        omega
      rw [h1]
      simp
    rw [hfilter] at hSms
    cases hSms with
    | cons₂ a hsub => exact heq rfl
    | cons a hsub =>
      have hcle := hsub.countP_le (fun x => decide (x.1 = q.1))
      have hql : List.countP (fun x => decide (x.1 = q.1))
          (q :: l₂.filter (fun x => decide (x.1 = q.1))) =
          (q :: l₂.filter (fun x => decide (x.1 = q.1))).length := by
        rw [List.countP_eq_length]
        intro a ha
        rcases List.mem_cons.mp ha with rfl | ha
        · simp
        · exact (List.mem_filter.mp ha).2
      have hperm : List.countP (fun x => decide (x.1 = q.1)) (h0 :: t0) =
          List.countP (fun x => decide (x.1 = q.1)) l := by
        have hp := List.mergeSort_perm l descLE
        rw [hms] at hp
        exact hp.countP_eq _
      have hcl : List.countP (fun x => decide (x.1 = q.1)) l =
          (q :: l₂.filter (fun x => decide (x.1 = q.1))).length := by
        rw [List.countP_eq_length_filter, hfilter]
      have hh0 : (decide (h0.1 = q.1)) = true := by
        simp [hq1]
      have hsplit0 : List.countP (fun x : Int × CatalogCandidate => decide (x.1 = q.1))
          (h0 :: t0) =
          List.countP (fun x : Int × CatalogCandidate => decide (x.1 = q.1)) t0 + 1 := by
        rw [List.countP_cons, hh0]
        simp
      omega

theorem firstBest_scoredOf (candidates : List CatalogCandidate) (kb_id : String)
    (constraints : BaselineConstraints) (bs : Int) (best : CatalogCandidate)
    (h : firstBest (scoredOf candidates kb_id constraints) = some (bs, best)) :
    bs = score_candidate best kb_id constraints ∧ 0 ≤ bs ∧ best ∈ candidates ∧
      ∀ q ∈ scoredOf candidates kb_id constraints, q.1 ≤ bs := by
  obtain ⟨l₁, l₂, hleq, hlt, hle⟩ := firstBest_spec _ _ h
  have hmem : (bs, best) ∈ scoredOf candidates kb_id constraints := by
    rw [hleq]
    exact List.mem_append_right _ (List.mem_cons_self _ _)
  unfold scoredOf at hmem
  rw [List.mem_filter] at hmem
  obtain ⟨hmm, hpos⟩ := hmem
  rw [List.mem_map] at hmm
  obtain ⟨cand, hcand, heq⟩ := hmm
  injection heq with h1 h2
  subst h2
  subst h1
  refine ⟨rfl, by simpa using hpos, hcand, hle⟩

/-- C1: `choose_best_candidate` scores every candidate, discards negative
scores, reports a no-match rejection when none remain, reports an
ambiguous-match rejection exactly when the best remaining score is at most
89, and returns the first best-scoring surviving candidate (earliest in
input order among ties) exactly when the best remaining score is at least
90; any returned candidate has score at least 90. -/
theorem c1_selector_threshold (candidates : List CatalogCandidate) (kb_id : String)
    (constraints : BaselineConstraints) :
    (scoredOf candidates kb_id constraints = [] →
      choose_best_candidate candidates kb_id constraints =
        (none, some "No candidate matched baseline constraints.")) ∧
    (∀ (best_score : Int) (best : CatalogCandidate),
      firstBest (scoredOf candidates kb_id constraints) = some (best_score, best) →
      0 ≤ best_score ∧
      best_score = score_candidate best kb_id constraints ∧
      best ∈ candidates ∧
      (∀ q ∈ scoredOf candidates kb_id constraints, q.1 ≤ best_score) ∧
      (best_score ≤ 89 →
        choose_best_candidate candidates kb_id constraints =
          (none, some ("Ambiguous match (best score " ++ toString best_score ++
            " below threshold)."))) ∧
      (90 ≤ best_score →
        choose_best_candidate candidates kb_id constraints = (some best, none))) ∧
    (∀ b, (choose_best_candidate candidates kb_id constraints).1 = some b →
      90 ≤ score_candidate b kb_id constraints) := by
  refine ⟨?_, ?_, ?_⟩
  · intro h
    simp [choose_best_candidate, h]
  · intro bs best hfb
    obtain ⟨hscore, hpos, hmem, hmax⟩ := firstBest_scoredOf _ _ _ _ _ hfb
    obtain ⟨rest, hms⟩ := head_mergeSort_descLE _ _ hfb
    refine ⟨hpos, hscore, hmem, hmax, ?_, ?_⟩
    · intro h89
      unfold choose_best_candidate
      rw [hms]
      dsimp only
      rw [if_pos (by omega : bs < 90)]
    · intro h90
      unfold choose_best_candidate
      rw [hms]
      dsimp only
      rw [if_neg (by omega : ¬ bs < 90)]
  · intro b hb
    rcases hfb : firstBest (scoredOf candidates kb_id constraints) with _ | q
    · have hnil := (firstBest_eq_none _).mp hfb
      rw [choose_best_candidate] at hb
      rw [hnil] at hb
      simp at hb
    · obtain ⟨bs, best⟩ := q
      obtain ⟨hscore, hpos, hmem, hmax⟩ := firstBest_scoredOf _ _ _ _ _ hfb
      obtain ⟨rest, hms⟩ := head_mergeSort_descLE _ _ hfb
      rw [choose_best_candidate] at hb
      rw [hms] at hb
      dsimp only at hb
      by_cases h90 : bs < 90
      · rw [if_pos h90] at hb
        exact Option.noConfusion hb
      · rw [if_neg h90] at hb
        injection hb with hb
        subst hb
        omega

/-- Witness for C1: with an x64 Windows 11 baseline, the ARM64 candidate is
discarded and the x64 candidate (score 140 ≥ 90) is selected. -/
theorem c1_witness :
    choose_best_candidate
      [⟨"a1", "2023-10 Cumulative Update for Windows 11 Version 23H2 for ARM64-based Systems (KB5031354)",
        "", "", "", "", ""⟩,
       ⟨"x1", "2023-10 Cumulative Update for Windows 11 Version 23H2 for x64-based Systems (KB5031354)",
        "", "", "", "", ""⟩]
      "KB5031354" ⟨"windows 11", "23H2", "22631", "x64"⟩ =
      (some ⟨"x1", "2023-10 Cumulative Update for Windows 11 Version 23H2 for x64-based Systems (KB5031354)",
        "", "", "", "", ""⟩, none) := by
  have h := ((c1_selector_threshold
    [⟨"a1", "2023-10 Cumulative Update for Windows 11 Version 23H2 for ARM64-based Systems (KB5031354)",
      "", "", "", "", ""⟩,
     ⟨"x1", "2023-10 Cumulative Update for Windows 11 Version 23H2 for x64-based Systems (KB5031354)",
      "", "", "", "", ""⟩]
    "KB5031354" ⟨"windows 11", "23H2", "22631", "x64"⟩).2.1 140
    ⟨"x1", "2023-10 Cumulative Update for Windows 11 Version 23H2 for x64-based Systems (KB5031354)",
      "", "", "", "", ""⟩ (by decide)).2.2.2.2.2
  exact h (by decide)

end Winshield
